import Mathlib

/-!
# SignalSense fusion engine — verification of the specification claims

Shallow embedding of the core pipeline of the `voice-annotator` scripts:
`05_disfluency.py` (event detectors + deterministic merge),
`06_merger.py` (transcript reconstruction), and
`ml_prep_split.py` (time-slice export).

Timestamps are modelled as exact rationals (`ℚ`); a CSV field that the
Python loaders map to `None` (missing, empty, unparseable, `nan`) is an
absent `Option` value.  Python's stable `sorted` is modelled by
`List.insertionSort`, which is a stable sort for a total transitive
comparison, hence extensionally the same function.
-/

namespace SignalSense

/-- A parsed alignment row (`load_alignment`): unparseable or missing
`start`/`end` CSV fields become absent values. -/
structure AlignRow where
  word : String
  start : Option ℚ
  endTime : Option ℚ
deriving DecidableEq

/-- A parsed VAD segment (`load_vad`). -/
structure VadSeg where
  start : ℚ
  endTime : ℚ
  is_speech : Bool
deriving DecidableEq

/-- A prosody row: only `jitter_approx` is consumed; a missing, empty or
unparseable value behaves as absent (the code coerces it to `0.0`). -/
structure ProsodyRow where
  jitter_approx : Option ℚ
deriving DecidableEq

/-- An event dictionary as produced by `05_disfluency.py`. -/
structure Event where
  type : String
  token : String
  word_idx : Option ℕ := none
  start : Option ℚ := none
  duration : Option ℚ := none
  insert_after_word_idx : Option ℕ := none
deriving DecidableEq

/-- Round a rational to the nearest integer, ties to even — the rounding
performed by Python float formatting, transported to exact rationals. -/
def roundHalfEven (q : ℚ) : ℤ :=
  let f := ⌊q⌋
  let r := q - f
  if r < 1/2 then f
  else if 1/2 < r then f + 1
  else if f % 2 = 0 then f else f + 1

/-- Left-pad a string with zeros to width `k`. -/
def zeroPad (k : ℕ) (s : String) : String :=
  String.mk (List.replicate (k - s.length) '0') ++ s

/-- Render `m` hundredths as a fixed two-decimal numeral. -/
def fixed2 (m : ℕ) : String :=
  Nat.repr (m / 100) ++ "." ++ zeroPad 2 (Nat.repr (m % 100))

/-- Python `f"{q:.2f}"` on an exact rational. -/
def fmtF2 (q : ℚ) : String :=
  let n := roundHalfEven (q * 100)
  if n < 0 then "-" ++ fixed2 (-n).toNat else fixed2 n.toNat

/-- Python `f"{q:06.2f}"` on an exact rational. -/
def fmtF062 (q : ℚ) : String :=
  let n := roundHalfEven (q * 100)
  if n < 0 then "-" ++ zeroPad 5 (fixed2 (-n).toNat) else zeroPad 6 (fixed2 n.toNat)

namespace Disfluency

/-- `detect_pauses_from_vad`: non-speech segments of duration ≥ `min_pause`,
as `(start, duration)` pairs. -/
def detect_pauses_from_vad (vad : List VadSeg) (min_pause : ℚ) : List (ℚ × ℚ) :=
  vad.filterMap fun seg =>
    if seg.is_speech then none
    else if min_pause ≤ seg.endTime - seg.start then
      some (seg.start, seg.endTime - seg.start)
    else none

/-- The scanning loop inside `assign_pause_to_nearest_word`: walk the rows,
skip rows with an absent start, remember the index of each row whose start
is ≤ the pause start, and stop at the first row whose start exceeds it. -/
def pauseScan (rows : List AlignRow) (p : ℚ) (idx : Option ℕ) (i : ℕ) : Option ℕ :=
  match rows with
  | [] => idx
  | r :: rs =>
    match r.start with
    | none => pauseScan rs p idx (i + 1)
    | some s => if s ≤ p then pauseScan rs p (some i) (i + 1) else idx

/-- `assign_pause_to_nearest_word`: the scan result, with `None` replaced
by `0`, becomes `insert_after_word_idx`. -/
def assign_pause_to_nearest_word (rows : List AlignRow) (pause_start pause_duration : ℚ) :
    Event :=
  { type := "pause"
    token := "/pause_" ++ fmtF2 pause_duration ++ "s/"
    start := some pause_start
    duration := some pause_duration
    insert_after_word_idx := some ((pauseScan rows pause_start none 0).getD 0) }

/-- `detect_repeat_words`: adjacent case-insensitively equal nonempty words
with start gap ≤ `max_gap` (missing starts default to `0`). -/
def detect_repeat_words (rows : List AlignRow) (max_gap : ℚ) : List Event :=
  ((rows.zip rows.tail).enum).filterMap fun x =>
    let w_prev := x.2.1.word.trim.toLower
    let w_cur := x.2.2.word.trim.toLower
    let s_prev := x.2.1.start.getD 0
    let s_cur := x.2.2.start.getD 0
    if w_prev ≠ "" ∧ w_prev = w_cur ∧ s_cur - s_prev ≤ max_gap then
      some { type := "repeat_word", word_idx := some (x.1 + 1),
             token := "/repeat_word:" ++ w_prev ++ "-" ++ w_cur ++ "/" }
    else none

/-- `detect_fillers`: trimmed lower-cased text in the fixed vocabulary. -/
def detect_fillers (rows : List AlignRow) : List Event :=
  rows.enum.filterMap fun x =>
    let w := x.2.word.trim.toLower
    if w ∈ (["uh", "um", "uhh", "umm", "hmm", "mm"] : List String) then
      some { type := "filler", word_idx := some x.1, token := "/filler_" ++ w ++ "/" }
    else none

/-- `detect_cutoffs`: absent start or end, or duration < 0.02 s. -/
def detect_cutoffs (rows : List AlignRow) : List Event :=
  rows.enum.filterMap fun x =>
    match x.2.start, x.2.endTime with
    | some s, some e =>
      if e - s < 1/50 then
        some { type := "cutoff", word_idx := some x.1, token := "/cutoff/" }
      else none
    | _, _ => some { type := "cutoff", word_idx := some x.1, token := "/cutoff/" }

/-- `detect_stutter_by_repeated_fragment`: hyphenated word whose first two
fragments match case-insensitively. -/
def detect_stutter_by_repeated_fragment (rows : List AlignRow) : List Event :=
  rows.enum.filterMap fun x =>
    let w := x.2.word
    if w.contains '-' then
      match w.splitOn "-" with
      | p0 :: p1 :: _ =>
        if p0.trim.toLower = p1.trim.toLower then
          some { type := "stutter", word_idx := some x.1,
                 token := "/stutter:" ++ p0 ++ "-" ++ p1 ++ "/" }
        else none
      | _ => none
    else none

/-- `detect_tremor_from_prosody`: nonzero jitter at or above the threshold.
The map is an insertion-ordered association list, as a Python dict is. -/
def detect_tremor_from_prosody (pros : List (ℕ × ProsodyRow)) (jitter_thresh : ℚ) :
    List Event :=
  pros.filterMap fun x =>
    let jitter := x.2.jitter_approx.getD 0
    if jitter ≠ 0 ∧ jitter_thresh ≤ jitter then
      some { type := "tremor", word_idx := some x.1, token := "/tremor/" }
    else none

/-- `load_vad` / absent input file: the empty collection. -/
def load_vad (contents : Option (List VadSeg)) : List VadSeg :=
  contents.getD []

/-- `load_prosody` / absent input file: the empty collection. -/
def load_prosody (contents : Option (List (ℕ × ProsodyRow))) : List (ℕ × ProsodyRow) :=
  contents.getD []

/-- The concatenated detector outputs of `main`, in the fixed evaluation
order: pauses, fillers, repeats, stutters, cutoffs, tremor (with the
hard-coded thresholds 0.15, 0.6, 0.015). -/
def all_events (rows : List AlignRow) (vad : List VadSeg)
    (pros : List (ℕ × ProsodyRow)) : List Event :=
  ((detect_pauses_from_vad vad (3/20)).map fun p =>
      assign_pause_to_nearest_word rows p.1 p.2)
    ++ detect_fillers rows
    ++ detect_repeat_words rows (3/5)
    ++ detect_stutter_by_repeated_fragment rows
    ++ detect_cutoffs rows
    ++ detect_tremor_from_prosody pros (3/200)

/-- `sort_key`: the `(time, priority)` pair; `none` stands for `+inf`. -/
def sort_key (rows : List AlignRow) (e : Event) : Option ℚ × ℕ :=
  if e.type = "pause" then (e.start, 0)
  else
    match e.word_idx with
    | none => (none, 1)
    | some wi =>
      match rows.get? wi with
      | none => (none, 1)
      | some r => (r.start, 1)

/-- Strict comparison of optional times, `none` being `+inf`. -/
def timeLtB : Option ℚ → Option ℚ → Bool
  | none, _ => false
  | some _, none => true
  | some a, some b => decide (a < b)

/-- Lexicographic comparison of `(time, priority)` keys. -/
def pairLeB (k1 k2 : Option ℚ × ℕ) : Bool :=
  timeLtB k1.1 k2.1 || (decide (k1.1 = k2.1) && decide (k1.2 ≤ k2.2))

/-- The comparison `sorted(events, key=sort_key)` sorts by. -/
def keyLeB (rows : List AlignRow) (e1 e2 : Event) : Bool :=
  pairLeB (sort_key rows e1) (sort_key rows e2)

/-- `events_sorted`: the merged event list, via a stable sort on the key. -/
def events_sorted (rows : List AlignRow) (vad : List VadSeg)
    (pros : List (ℕ × ProsodyRow)) : List Event :=
  (all_events rows vad pros).insertionSort fun a b => keyLeB rows a b = true

/-- Detector rank: the fixed evaluation sequence Pause, Filler, Repeat,
Stutter, Cutoff, Tremor. -/
def detectorRank (e : Event) : ℕ :=
  if e.type = "pause" then 0
  else if e.type = "filler" then 1
  else if e.type = "repeat_word" then 2
  else if e.type = "stutter" then 3
  else if e.type = "cutoff" then 4
  else 5

end Disfluency

namespace Merger

/-- Tokens inserted before word `i`: fillers, stutters and repeats anchored
at `i`, in event order. -/
def insert_before (events : List Event) (i : ℕ) : List String :=
  events.filterMap fun ev =>
    if ev.type = "pause" then none
    else
      match ev.word_idx with
      | none => none
      | some wi =>
        if (ev.type = "filler" ∨ ev.type = "stutter" ∨ ev.type = "repeat_word") ∧ wi = i then
          some ev.token
        else none

/-- Tokens inserted after word `i`: pauses whose `insert_after_word_idx`
(defaulting to `0`) is `i`, and the remaining word-anchored events at `i`. -/
def insert_after (events : List Event) (i : ℕ) : List String :=
  events.filterMap fun ev =>
    if ev.type = "pause" then
      if ev.insert_after_word_idx.getD 0 = i then some ev.token else none
    else
      match ev.word_idx with
      | none => none
      | some wi =>
        if ¬(ev.type = "filler" ∨ ev.type = "stutter" ∨ ev.type = "repeat_word") ∧ wi = i then
          some ev.token
        else none

/-- The token group of word `i`: before-tokens, the word text, after-tokens,
with empty strings dropped (`filter(None, tokens)`). -/
def wordGroup (events : List Event) (i : ℕ) (w : AlignRow) : List String :=
  (insert_before events i ++ [w.word] ++ insert_after events i).filter
    fun t => decide (t ≠ "")

/-- The running state of the reconstruction loop of `06_merger.py`:
committed lines are kept structured as (line start, token groups). -/
structure MState where
  lines : List (Option ℚ × List (List String))
  current : List (List String)
  curStart : Option ℚ
  prevEnd : ℚ
deriving DecidableEq

/-- The large-pause test: a non-speech VAD segment of duration ≥ 0.6 s
lying (up to ε = 1e-6) between the previous end and the current start. -/
def largePause (vad : List VadSeg) (prevEnd start : ℚ) : Bool :=
  vad.any fun seg =>
    !seg.is_speech && decide (prevEnd - 1/1000000 ≤ seg.start)
      && decide (seg.endTime ≤ start + 1/1000000)
      && decide (3/5 ≤ seg.endTime - seg.start)

/-- One iteration of the word loop in `main` of `06_merger.py`. -/
def mergeStep (vad : List VadSeg) (events : List Event) (st : MState)
    (iw : ℕ × AlignRow) : MState :=
  let start := iw.2.start.getD 0
  let endv : ℚ :=
    match iw.2.endTime with
    | some e => if e = 0 then start + 1/20 else e
    | none => start + 1/20
  let cs := st.curStart.getD start
  let current2 := st.current ++ [wordGroup events iw.1 iw.2]
  if largePause vad st.prevEnd start then
    { lines := if current2.isEmpty then st.lines else st.lines ++ [(some cs, current2)]
      current := [], curStart := none, prevEnd := endv }
  else
    { lines := st.lines, current := current2, curStart := some cs, prevEnd := endv }

/-- The final flush: commit the remaining line (header omitted when its
start is unknown, which requires the line to be empty). -/
def mergeFinish (st : MState) : List (Option ℚ × List (List String)) :=
  if st.current.isEmpty then st.lines else st.lines ++ [(st.curStart, st.current)]

/-- The structured committed lines of the reconstruction. -/
def merge_lines (rows : List AlignRow) (vad : List VadSeg) (events : List Event) :
    List (Option ℚ × List (List String)) :=
  mergeFinish (rows.enum.foldl (mergeStep vad events) ⟨[], [], none, 0⟩)

/-- Render a structured line exactly as the code commits it:
`"[{start:06.2f}] " + " ".join(current_line)` (header dropped when the
start is unknown). -/
def renderLine (l : Option ℚ × List (List String)) : String :=
  let body := String.intercalate " " (l.2.map (String.intercalate " "))
  match l.1 with
  | some s => "[" ++ fmtF062 s ++ "] " ++ body
  | none => body

/-- The annotated transcript, one string per committed line. -/
def transcript (rows : List AlignRow) (vad : List VadSeg) (events : List Event) :
    List String :=
  (merge_lines rows vad events).map renderLine

end Merger

namespace MLPrep

/-- An alignment row as loaded by `ml_prep_split.py`: `start` is parsed,
`end` is kept raw.  `endRaw = none` models a missing field,
`some none` a present but unparseable one, `some (some q)` a parseable one. -/
structure MLRow where
  word : String
  start : Option ℚ
  endRaw : Option (Option ℚ)
deriving DecidableEq

/-- `build_token_to_start_map`. -/
def build_token_to_start_map (rows : List MLRow) : List (ℕ × String × Option ℚ) :=
  rows.enum.map fun x => (x.1, x.2.word, x.2.start)

/-- `split_by_time`: `n` equal slices of `[0, total)`, the last one closed. -/
def split_by_time (total : ℚ) (n : ℕ) : List (ℚ × ℚ) :=
  (List.range n).map fun (i : ℕ) =>
    ((i : ℚ) * (total / n), if i < n - 1 then ((i : ℚ) + 1) * (total / n) else total)

/-- The backwards scan of `estimate_total_duration`: the first row (from the
end) with a parseable `end` (or, failing the `end` being present at all, a
present `start`); a row whose `end` is present but unparseable is skipped
entirely by the exception handler. -/
def durPick : List MLRow → ℚ
  | [] => 0
  | r :: rs =>
    match r.endRaw with
    | some (some e) => e
    | some none => durPick rs
    | none =>
      match r.start with
      | some s => s
      | none => durPick rs

/-- `estimate_total_duration`. -/
def estimate_total_duration (rows : List MLRow) : ℚ :=
  max 1 (durPick rows.reverse)

/-- Python `"".join(ch for ch in tok.lower() if ch.isalnum())`. -/
def normTok (s : String) : String :=
  String.mk ((s.data.map Char.toLower).filter Char.isAlphanum)

/-- Flatten the annotated lines into whitespace-delimited tokens
(Python `str.split()` drops empty pieces). -/
def flat_tokens (annot : List String) : List String :=
  (annot.map fun ln => (ln.split Char.isWhitespace).filter fun t => decide (t ≠ "")).flatten

/-- The fallback timestamp of an unmatched token: the most recently
assigned time, else the cursor word's start, else `0.0`. -/
def fallbackTime (acc : List (String × ℚ)) (s : Option ℚ) : ℚ :=
  match acc.getLast? with
  | some p => p.2
  | none => s.getD 0

/-- The greedy two-cursor realignment loop of `assign_tokens_to_slices`. -/
def assignLoop : List String → List (ℕ × String × Option ℚ) → List (String × ℚ) →
    List (String × ℚ)
  | [], _, acc => acc
  | tok :: toks, [], acc => assignLoop toks [] (acc ++ [(tok, fallbackTime acc none)])
  | tok :: toks, (wi, w, s) :: wrest, acc =>
    match s with
    | some sv =>
      if w ≠ "" ∧ normTok tok = normTok w then
        assignLoop toks wrest (acc ++ [(tok, sv)])
      else
        assignLoop toks ((wi, w, some sv) :: wrest) (acc ++ [(tok, fallbackTime acc (some sv))])
    | none =>
      assignLoop toks ((wi, w, none) :: wrest) (acc ++ [(tok, fallbackTime acc none)])

/-- The slice containing time `t`: first `(a, b)` with `a ≤ t` and
(`t < b` or the slice is the last one). -/
def place (boundaries : List (ℚ × ℚ)) (t : ℚ) : Option ℕ :=
  (boundaries.enum.find? fun x =>
    decide (x.2.1 ≤ t) && (decide (t < x.2.2) || decide (x.1 = boundaries.length - 1))).map
    Prod.fst

/-- Append a token to the `i`-th slice. -/
def appendAt : List (List String) → ℕ → String → List (List String)
  | [], _, _ => []
  | s :: rest, 0, tok => (s ++ [tok]) :: rest
  | s :: rest, Nat.succ k, tok => s :: appendAt rest k tok

/-- Distribute the timestamped tokens over the slices; an unplaced token
goes to the last slice. -/
def fillSlices (boundaries : List (ℚ × ℚ)) (assignments : List (String × ℚ)) :
    List (List String) :=
  assignments.foldl
    (fun sl a =>
      match place boundaries a.2 with
      | some i => appendAt sl i a.1
      | none => appendAt sl (boundaries.length - 1) a.1)
    (boundaries.map fun _ => [])

/-- `assign_tokens_to_slices`. -/
def assign_tokens_to_slices (annot : List String) (token_map : List (ℕ × String × Option ℚ))
    (boundaries : List (ℚ × ℚ)) : List String :=
  (fillSlices boundaries (assignLoop (flat_tokens annot) token_map [])).map fun s =>
    if s.isEmpty then "" else (String.intercalate " " s).trim

/-- `main` of `ml_prep_split.py`, as a function from loaded inputs to the
list of output lines. -/
def ml_main (annot : List String) (rows : List MLRow) (n : ℕ) : List String :=
  if rows.length = 0 then List.replicate n ""
  else
    assign_tokens_to_slices annot (build_token_to_start_map rows)
      (split_by_time (estimate_total_duration rows) n)

end MLPrep

/-- The whole engine on loaded inputs: merged events, rendered transcript
(newline-joined), and the time-sliced export (one trailing newline per
line, as written by the script). -/
def run_all (rows : List AlignRow) (vad : Option (List VadSeg))
    (pros : Option (List (ℕ × ProsodyRow))) (mlrows : List MLPrep.MLRow) (n : ℕ) :
    List Event × String × String :=
  let events := Disfluency.events_sorted rows (Disfluency.load_vad vad)
    (Disfluency.load_prosody pros)
  let lines := Merger.transcript rows (vad.getD []) events
  let mlOut := MLPrep.ml_main lines mlrows n
  (events, String.intercalate "\n" lines, String.join (mlOut.map (· ++ "\n")))

/-! ## Order-theoretic facts about the merge key

Batteries marks rational arithmetic `@[irreducible]`, which blocks `decide`
at elaboration time only; the kernel unfolds it regardless.  Restore the
default reducibility locally so concrete inputs evaluate. -/

attribute [local semireducible] Rat.add Rat.sub Rat.mul Rat.inv Rat.ofScientific

namespace Disfluency

theorem pairLeB_refl (k : Option ℚ × ℕ) : pairLeB k k = true := by
  simp [pairLeB]

theorem pairLeB_total (k1 k2 : Option ℚ × ℕ) :
    pairLeB k1 k2 = true ∨ pairLeB k2 k1 = true := by
  rcases k1 with ⟨t1, p1⟩
  rcases k2 with ⟨t2, p2⟩
  rcases t1 with _ | a <;> rcases t2 with _ | b <;> simp [pairLeB, timeLtB]
  · omega
  · rcases lt_trichotomy a b with h | h | h
    · exact Or.inl (Or.inl h)
    · subst h
      rcases Nat.le_total p1 p2 with hp | hp
      · exact Or.inl (Or.inr ⟨rfl, hp⟩)
      · exact Or.inr (Or.inr ⟨rfl, hp⟩)
    · exact Or.inr (Or.inl h)

theorem pairLeB_trans {k1 k2 k3 : Option ℚ × ℕ} (h1 : pairLeB k1 k2 = true)
    (h2 : pairLeB k2 k3 = true) : pairLeB k1 k3 = true := by
  rcases k1 with ⟨t1, p1⟩
  rcases k2 with ⟨t2, p2⟩
  rcases k3 with ⟨t3, p3⟩
  rcases t1 with _ | a <;> rcases t2 with _ | b <;> rcases t3 with _ | c <;>
    simp_all [pairLeB, timeLtB]
  · omega
  · rcases h1 with h1 | ⟨rfl, hp1⟩ <;> rcases h2 with h2 | ⟨rfl, hp2⟩
    · exact Or.inl (lt_trans h1 h2)
    · exact Or.inl h1
    · exact Or.inl h2
    · exact Or.inr ⟨rfl, le_trans hp1 hp2⟩

theorem pairLeB_antisymm {k1 k2 : Option ℚ × ℕ} (h1 : pairLeB k1 k2 = true)
    (h2 : pairLeB k2 k1 = true) : k1 = k2 := by
  rcases k1 with ⟨t1, p1⟩
  rcases k2 with ⟨t2, p2⟩
  rcases t1 with _ | a <;> rcases t2 with _ | b <;> simp_all [pairLeB, timeLtB]
  · omega
  · rcases h1 with h1 | ⟨rfl, hp1⟩
    · rcases h2 with h2 | ⟨rfl, hp2⟩
      · exact absurd h2 (lt_asymm h1)
      · exact absurd h1 (lt_irrefl _)
    · rcases h2 with h2 | ⟨-, hp2⟩
      · exact absurd h2 (lt_irrefl _)
      · exact ⟨rfl, le_antisymm hp1 hp2⟩

theorem keyLeB_total (rows : List AlignRow) (e1 e2 : Event) :
    keyLeB rows e1 e2 = true ∨ keyLeB rows e2 e1 = true :=
  pairLeB_total _ _

theorem keyLeB_trans {rows : List AlignRow} {e1 e2 e3 : Event}
    (h1 : keyLeB rows e1 e2 = true) (h2 : keyLeB rows e2 e3 = true) :
    keyLeB rows e1 e3 = true :=
  pairLeB_trans h1 h2

/-- The relation the merged list is pairwise ordered by: ascending key, and
among key-ties ascending detector rank. -/
def mergeR (rows : List AlignRow) (e1 e2 : Event) : Prop :=
  keyLeB rows e1 e2 = true ∧
    (keyLeB rows e2 e1 = true → detectorRank e1 ≤ detectorRank e2)

/-! ## Stability of the sort

Inserting an element whose detector rank is a lower bound of a `mergeR`-
pairwise list preserves `mergeR`-pairwiseness. -/

theorem pairwise_mergeR_orderedInsert (rows : List AlignRow) (x : Event)
    (l : List Event) (hl : l.Pairwise (mergeR rows))
    (hx : ∀ y ∈ l, detectorRank x ≤ detectorRank y) :
    (l.orderedInsert (fun a b => keyLeB rows a b = true) x).Pairwise (mergeR rows) := by
  induction l with
  | nil => simp [List.orderedInsert, mergeR]
  | cons y ys ih =>
    have hl' := List.pairwise_cons.mp hl
    simp only [List.orderedInsert]
    by_cases h : keyLeB rows x y = true
    · rw [if_pos h]
      refine List.Pairwise.cons ?_ hl
      intro z hz
      rcases List.mem_cons.mp hz with rfl | hz'
      · exact ⟨h, fun _ => hx z (List.mem_cons_self _ _)⟩
      · exact ⟨keyLeB_trans h (hl'.1 z hz').1,
          fun _ => hx z (List.mem_cons_of_mem _ hz')⟩
    · rw [if_neg h]
      refine List.Pairwise.cons ?_
        (ih hl'.2 fun z hz => hx z (List.mem_cons_of_mem _ hz))
      intro z hz
      rcases (List.mem_orderedInsert _).mp hz with rfl | hz'
      · refine ⟨?_, fun hzy => absurd hzy h⟩
        rcases keyLeB_total rows z y with ht | ht
        · exact absurd ht h
        · exact ht
      · exact hl'.1 z hz'

/-- A stable sort of a list that is pairwise ascending in detector rank is
pairwise `mergeR`. -/
theorem pairwise_mergeR_insertionSort (rows : List AlignRow) (l : List Event)
    (hrk : l.Pairwise fun a b => detectorRank a ≤ detectorRank b) :
    (l.insertionSort (fun a b => keyLeB rows a b = true)).Pairwise (mergeR rows) := by
  induction l with
  | nil => simp [List.insertionSort]
  | cons x xs ih =>
    have hp := List.pairwise_cons.mp hrk
    simp only [List.insertionSort]
    refine pairwise_mergeR_orderedInsert rows x _ (ih hp.2) fun y hy => ?_
    exact hp.1 y ((List.perm_insertionSort _ xs).mem_iff.mp hy)

/-! ## Detector outputs have fixed types and ranks -/

theorem type_of_mem_pause_events {rows : List AlignRow} {vad : List VadSeg} {m : ℚ}
    {e : Event}
    (he : e ∈ (detect_pauses_from_vad vad m).map fun p =>
      assign_pause_to_nearest_word rows p.1 p.2) : e.type = "pause" := by
  simp only [List.mem_map] at he
  obtain ⟨p, -, rfl⟩ := he
  rfl

theorem type_of_mem_detect_fillers {rows : List AlignRow} {e : Event}
    (he : e ∈ detect_fillers rows) : e.type = "filler" := by
  simp only [detect_fillers, List.mem_filterMap] at he
  obtain ⟨x, -, hx⟩ := he
  split at hx
  · injection hx with h
    subst h
    rfl
  · exact Option.noConfusion hx

theorem type_of_mem_detect_repeat_words {rows : List AlignRow} {g : ℚ} {e : Event}
    (he : e ∈ detect_repeat_words rows g) : e.type = "repeat_word" := by
  simp only [detect_repeat_words, List.mem_filterMap] at he
  obtain ⟨x, -, hx⟩ := he
  split at hx
  · injection hx with h
    subst h
    rfl
  · exact Option.noConfusion hx

theorem type_of_mem_detect_stutter {rows : List AlignRow} {e : Event}
    (he : e ∈ detect_stutter_by_repeated_fragment rows) : e.type = "stutter" := by
  simp only [detect_stutter_by_repeated_fragment, List.mem_filterMap] at he
  obtain ⟨x, -, hx⟩ := he
  repeat' split at hx
  all_goals first
    | (injection hx with h; subst h; rfl)
    | exact Option.noConfusion hx

theorem type_of_mem_detect_cutoffs {rows : List AlignRow} {e : Event}
    (he : e ∈ detect_cutoffs rows) : e.type = "cutoff" := by
  simp only [detect_cutoffs, List.mem_filterMap] at he
  obtain ⟨x, -, hx⟩ := he
  repeat' split at hx
  all_goals first
    | (injection hx with h; subst h; rfl)
    | exact Option.noConfusion hx

theorem type_of_mem_detect_tremor {pros : List (ℕ × ProsodyRow)} {th : ℚ} {e : Event}
    (he : e ∈ detect_tremor_from_prosody pros th) : e.type = "tremor" := by
  simp only [detect_tremor_from_prosody, List.mem_filterMap] at he
  obtain ⟨x, -, hx⟩ := he
  split at hx
  · injection hx with h
    subst h
    rfl
  · exact Option.noConfusion hx

theorem pairwise_rank_const {l : List Event} {c : ℕ}
    (h : ∀ e ∈ l, detectorRank e = c) :
    l.Pairwise fun a b => detectorRank a ≤ detectorRank b := by
  induction l with
  | nil => exact List.Pairwise.nil
  | cons x xs ih =>
    refine List.Pairwise.cons (fun y hy => ?_)
      (ih fun e he => h e (List.mem_cons_of_mem _ he))
    rw [h x (List.mem_cons_self _ _), h y (List.mem_cons_of_mem _ hy)]

/-- The concatenated detector outputs are ascending in detector rank. -/
theorem all_events_rank_pairwise (rows : List AlignRow) (vad : List VadSeg)
    (pros : List (ℕ × ProsodyRow)) :
    (all_events rows vad pros).Pairwise fun a b => detectorRank a ≤ detectorRank b := by
  have hP : ∀ e ∈ (detect_pauses_from_vad vad (3/20)).map
      (fun p => assign_pause_to_nearest_word rows p.1 p.2), detectorRank e = 0 :=
    fun e he => by rw [detectorRank, if_pos (type_of_mem_pause_events he)]
  have hF : ∀ e ∈ detect_fillers rows, detectorRank e = 1 := fun e he => by
    simp [detectorRank, type_of_mem_detect_fillers he]
  have hR : ∀ e ∈ detect_repeat_words rows (3/5), detectorRank e = 2 := fun e he => by
    simp [detectorRank, type_of_mem_detect_repeat_words he]
  have hS : ∀ e ∈ detect_stutter_by_repeated_fragment rows, detectorRank e = 3 :=
    fun e he => by simp [detectorRank, type_of_mem_detect_stutter he]
  have hC : ∀ e ∈ detect_cutoffs rows, detectorRank e = 4 := fun e he => by
    simp [detectorRank, type_of_mem_detect_cutoffs he]
  have hT : ∀ e ∈ detect_tremor_from_prosody pros (3/200), detectorRank e = 5 :=
    fun e he => by simp [detectorRank, type_of_mem_detect_tremor he]
  unfold all_events
  have app : ∀ {l1 l2 : List Event} {c1 : ℕ},
      (∀ e ∈ l1, detectorRank e ≤ c1) →
      l1.Pairwise (fun a b => detectorRank a ≤ detectorRank b) →
      ∀ {c2 : ℕ}, c1 ≤ c2 → (∀ e ∈ l2, detectorRank e = c2) →
      (l1 ++ l2).Pairwise (fun a b => detectorRank a ≤ detectorRank b) ∧
        ∀ e ∈ l1 ++ l2, detectorRank e ≤ c2 := by
    intro l1 l2 c1 hub hpw c2 hc hconst
    constructor
    · rw [List.pairwise_append]
      exact ⟨hpw, pairwise_rank_const hconst, fun a ha b hb =>
        le_trans (le_trans (hub a ha) hc) (le_of_eq (hconst b hb).symm)⟩
    · intro e he
      rcases List.mem_append.mp he with h | h
      · exact le_trans (hub e h) hc
      · exact le_of_eq (hconst e h)
  have h1 := app (fun e he => le_of_eq (hP e he))
    (pairwise_rank_const hP) (by omega) hF
  have h2 := app h1.2 h1.1 (by omega) hR
  have h3 := app h2.2 h2.1 (by omega) hS
  have h4 := app h3.2 h3.1 (by omega) hC
  have h5 := app h4.2 h4.1 (by omega) hT
  exact h5.1

/-- C1: in the merged event list, events are in ascending order of the
`(time, priority)` key computed by `sort_key` (a pause uses its own start
with priority 0, any other event the start of the word at its index with
priority 1, absent or out-of-range mapping to +infinity), and events whose
keys are equal appear in the fixed detector sequence Pause, Filler, Repeat,
Stutter, Cutoff, Tremor. -/
theorem merged_events_sorted_by_key (rows : List AlignRow) (vad : List VadSeg)
    (pros : List (ℕ × ProsodyRow)) :
    (events_sorted rows vad pros).Pairwise fun e1 e2 =>
      keyLeB rows e1 e2 = true ∧
        (sort_key rows e1 = sort_key rows e2 → detectorRank e1 ≤ detectorRank e2) := by
  have h := pairwise_mergeR_insertionSort rows (all_events rows vad pros)
    (all_events_rank_pairwise rows vad pros)
  refine h.imp fun hab => ⟨hab.1, fun hk => hab.2 ?_⟩
  unfold keyLeB
  rw [hk]
  exact pairLeB_refl _

/-! ## Absent optional inputs -/

/-- C7: an entirely absent VAD input makes the Pause detector produce zero
events and an entirely absent Prosody input makes the Tremor detector
produce zero events; either absence is treated as the empty collection (the
pipeline stays total), and the merged output contains no event of the
corresponding kind. -/
theorem absent_inputs_give_zero_events (m th : ℚ) (rows : List AlignRow)
    (pros : List (ℕ × ProsodyRow)) (vad : List VadSeg) :
    detect_pauses_from_vad (load_vad none) m = [] ∧
    detect_tremor_from_prosody (load_prosody none) th = [] ∧
    (events_sorted rows (load_vad none) pros).filter
      (fun e => decide (e.type = "pause")) = [] ∧
    (events_sorted rows vad (load_prosody none)).filter
      (fun e => decide (e.type = "tremor")) = [] := by
  refine ⟨rfl, rfl, ?_, ?_⟩
  · rw [List.filter_eq_nil_iff]
    intro e he
    have hmem : e ∈ all_events rows (load_vad none) pros :=
      (List.perm_insertionSort _ _).mem_iff.mp he
    simp only [all_events, load_vad, Option.getD_none, detect_pauses_from_vad,
      List.filterMap_nil, List.map_nil, List.nil_append, List.append_assoc,
      List.mem_append] at hmem
    rcases hmem with h | h | h | h | h
    · simp [type_of_mem_detect_fillers h]
    · simp [type_of_mem_detect_repeat_words h]
    · simp [type_of_mem_detect_stutter h]
    · simp [type_of_mem_detect_cutoffs h]
    · simp [type_of_mem_detect_tremor h]
  · rw [List.filter_eq_nil_iff]
    intro e he
    have hmem : e ∈ all_events rows vad (load_prosody none) :=
      (List.perm_insertionSort _ _).mem_iff.mp he
    simp only [all_events, load_prosody, Option.getD_none, detect_tremor_from_prosody,
      List.filterMap_nil, List.append_nil, List.append_assoc,
      List.mem_append] at hmem
    rcases hmem with h | h | h | h | h
    · simp [type_of_mem_pause_events h]
    · simp [type_of_mem_detect_fillers h]
    · simp [type_of_mem_detect_repeat_words h]
    · simp [type_of_mem_detect_stutter h]
    · simp [type_of_mem_detect_cutoffs h]

/-! ## The pause anchor -/

/-- Modelled from the spec, amended: scan all words, remembering the index
of the last word whose present start is ≤ `p`. -/
def specLastWordIndexLe : List AlignRow → ℚ → ℕ → Option ℕ → Option ℕ
  | [], _, _, acc => acc
  | r :: rs, p, i, acc =>
    specLastWordIndexLe rs p (i + 1)
      (match r.start with
       | some s => if s ≤ p then some i else acc
       | none => acc)

/-- Modelled from the spec, amended: the index of the last word whose
present start is ≤ `p`, or `0` when no word qualifies. -/
def specInsertAfter (rows : List AlignRow) (p : ℚ) : ℕ :=
  (specLastWordIndexLe rows p 0 none).getD 0

theorem specLastWordIndexLe_of_forall {rs : List AlignRow} {p : ℚ}
    (h : ∀ s ∈ rs.filterMap (fun r => r.start), ¬s ≤ p) :
    ∀ i acc, specLastWordIndexLe rs p i acc = acc := by
  induction rs with
  | nil => intro i acc; rfl
  | cons r rs ih =>
    intro i acc
    rcases hr : r.start with - | s
    · simp only [specLastWordIndexLe, hr]
      exact ih (by
        intro s hs
        exact h s (by simp [List.filterMap_cons, hr, hs])) _ _
    · have hs : ¬s ≤ p := h s (by simp [List.filterMap_cons, hr])
      simp only [specLastWordIndexLe, hr, if_neg hs]
      exact ih (by
        intro s' hs'
        exact h s' (by simp [List.filterMap_cons, hr, hs'])) _ _

/-- Under nondecreasing present starts, the break-early scan of
`assign_pause_to_nearest_word` computes the index of the last word whose
present start is ≤ the pause start. -/
theorem pauseScan_eq_spec {rows : List AlignRow} {p : ℚ}
    (hsorted : (rows.filterMap fun r => r.start).Pairwise (· ≤ ·)) :
    ∀ i acc, pauseScan rows p acc i = specLastWordIndexLe rows p i acc := by
  induction rows with
  | nil => intro i acc; rfl
  | cons r rs ih =>
    intro i acc
    rcases hr : r.start with - | s
    · rw [List.filterMap_cons, hr] at hsorted
      simp only [pauseScan, specLastWordIndexLe, hr]
      exact ih hsorted _ _
    · rw [List.filterMap_cons, hr] at hsorted
      have hpw := List.pairwise_cons.mp hsorted
      by_cases hs : s ≤ p
      · simp only [pauseScan, specLastWordIndexLe, hr, if_pos hs]
        exact ih hpw.2 _ _
      · simp only [pauseScan, specLastWordIndexLe, hr, if_neg hs]
        exact (specLastWordIndexLe_of_forall (fun s' hs' hs'p =>
          hs (le_trans (hpw.1 s' hs') hs'p)) _ _).symm

/-- C2 (counterexample): when no word has a start ≤ the pause start, the
emitted Pause event carries `insert_after_word_idx = 0`, not an absent
index as the claim states. -/
theorem pause_insert_after_counterexample :
    ((detect_pauses_from_vad [⟨2, 14/5, false⟩] (3/20)).map fun p =>
        assign_pause_to_nearest_word [⟨"hi", some 5, some 6⟩] p.1 p.2).map
      (fun e => e.insert_after_word_idx) = [some 0] ∧
    (some 0 : Option ℕ) ≠ none :=
  ⟨by decide, by decide⟩

/-- C2 (amended): provided words with present starts appear in nondecreasing
start order, every qualifying non-speech segment (duration ≥ 0.15 s) yields
exactly one Pause event with start = segment start, duration = segment
duration, token `/pause_{duration:.2f}s/`, and `insert_after_word_idx` equal
to the index of the last word whose present start is ≤ the pause start —
or `0` (not an absent index) when no such word exists. -/
theorem pause_events_spec (rows : List AlignRow) (vad : List VadSeg)
    (hsorted : (rows.filterMap fun r => r.start).Pairwise (· ≤ ·)) :
    (detect_pauses_from_vad vad (3/20)).map
        (fun p => assign_pause_to_nearest_word rows p.1 p.2) =
      (vad.filter fun seg =>
          !seg.is_speech && decide ((3:ℚ)/20 ≤ seg.endTime - seg.start)).map
        fun seg =>
          { type := "pause"
            token := "/pause_" ++ fmtF2 (seg.endTime - seg.start) ++ "s/"
            start := some seg.start
            duration := some (seg.endTime - seg.start)
            insert_after_word_idx := some (specInsertAfter rows seg.start) } := by
  have hdp : detect_pauses_from_vad vad (3/20) =
      (vad.filter fun seg =>
          !seg.is_speech && decide ((3:ℚ)/20 ≤ seg.endTime - seg.start)).map
        fun seg => (seg.start, seg.endTime - seg.start) := by
    induction vad with
    | nil => rfl
    | cons s ss ih =>
      by_cases hsp : s.is_speech
      · simpa [detect_pauses_from_vad, List.filterMap_cons, List.filter_cons, hsp]
          using ih
      · by_cases hd : (3:ℚ)/20 ≤ s.endTime - s.start
        · simpa [detect_pauses_from_vad, List.filterMap_cons, List.filter_cons,
            hsp, hd] using ih
        · simpa [detect_pauses_from_vad, List.filterMap_cons, List.filter_cons,
            hsp, hd] using ih
  rw [hdp, List.map_map]
  refine List.map_congr_left fun seg _ => ?_
  simp only [Function.comp, assign_pause_to_nearest_word, specInsertAfter,
    pauseScan_eq_spec hsorted]

/-- Witness for `pause_events_spec` at a concrete input. -/
theorem pause_events_spec_witness :
    (detect_pauses_from_vad [⟨2, 3, false⟩] (3/20)).map
        (fun p => assign_pause_to_nearest_word [⟨"a", some 1, some 2⟩] p.1 p.2) =
      [{ type := "pause", token := "/pause_1.00s/", start := some 2,
         duration := some 1, insert_after_word_idx := some 0 }] := by
  rw [pause_events_spec [⟨"a", some 1, some 2⟩] [⟨2, 3, false⟩] (by decide)]
  decide

end Disfluency

/-! ## Transcript reconstruction -/

namespace Merger

theorem mergeStep_of_largePause (vad : List VadSeg) (events : List Event)
    (st : MState) (iw : ℕ × AlignRow)
    (h : largePause vad st.prevEnd (iw.2.start.getD 0) = true) :
    mergeStep vad events st iw =
      { lines := st.lines ++
          [(some (st.curStart.getD (iw.2.start.getD 0)),
            st.current ++ [wordGroup events iw.1 iw.2])]
        current := []
        curStart := none
        prevEnd :=
          match iw.2.endTime with
          | some e => if e = 0 then iw.2.start.getD 0 + 1/20 else e
          | none => iw.2.start.getD 0 + 1/20 } := by
  have hne : (st.current ++ [wordGroup events iw.1 iw.2]).isEmpty = false := by
    cases st.current <;> rfl
  simp only [mergeStep, h, if_true, hne, Bool.false_eq_true, if_false]

theorem mergeStep_not_largePause (vad : List VadSeg) (events : List Event)
    (st : MState) (iw : ℕ × AlignRow)
    (h : largePause vad st.prevEnd (iw.2.start.getD 0) = false) :
    mergeStep vad events st iw =
      { lines := st.lines
        current := st.current ++ [wordGroup events iw.1 iw.2]
        curStart := some (st.curStart.getD (iw.2.start.getD 0))
        prevEnd :=
          match iw.2.endTime with
          | some e => if e = 0 then iw.2.start.getD 0 + 1/20 else e
          | none => iw.2.start.getD 0 + 1/20 } := by
  simp only [mergeStep, h, Bool.false_eq_true, if_false]

/-- C3 (counterexample): with words `hello` (0–0.4 s) and `world`
(1.2–1.5 s) separated by a 0.7 s non-speech segment, the code commits the
line *including* the current word — the output is the single line
`"[000.00] hello world"`, not a break before `world`. -/
theorem break_before_word_counterexample :
    transcript [⟨"hello", some 0, some (2/5)⟩, ⟨"world", some (6/5), some (3/2)⟩]
        [⟨9/20, 23/20, false⟩] [] = ["[000.00] hello world"] ∧
    (["[000.00] hello world"] : List String) ≠ ["[000.00] hello", "[001.20] world"] :=
  ⟨by decide, by decide⟩

/-- C3 (amended): when a qualifying non-speech segment lies between the
previous word's end and the current word's start, the line break is forced
*after* appending the current word: the accumulated line is committed
together with the current word's token group as its last element, and the
following word (if any) begins the new line. -/
theorem break_commits_with_current_word (vad : List VadSeg) (events : List Event)
    (st : MState) (i : ℕ) (w : AlignRow)
    (h : largePause vad st.prevEnd (w.start.getD 0) = true) :
    (mergeStep vad events st (i, w)).current = [] ∧
    (mergeStep vad events st (i, w)).lines =
      st.lines ++ [(some (st.curStart.getD (w.start.getD 0)),
        st.current ++ [wordGroup events i w])] := by
  rw [mergeStep_of_largePause vad events st (i, w) h]
  exact ⟨rfl, rfl⟩

/-- Witness for `break_commits_with_current_word` at a concrete input. -/
theorem break_commits_with_current_word_witness :
    (mergeStep [⟨0, 1, false⟩] [] ⟨[], [["a"]], some 1, 0⟩
      (1, ⟨"b", some 2, none⟩)).current = [] ∧
    (mergeStep [⟨0, 1, false⟩] [] ⟨[], [["a"]], some 1, 0⟩
      (1, ⟨"b", some 2, none⟩)).lines = [(some 1, [["a"], ["b"]])] := by
  have h := break_commits_with_current_word [⟨0, 1, false⟩] []
    ⟨[], [["a"]], some 1, 0⟩ 1 ⟨"b", some 2, none⟩ (by decide)
  exact ⟨h.1, by rw [h.2]; decide⟩

/-- C4 (counterexample): a single word with an absent start is rendered
with the header `[000.00] ` — the header is not omitted. -/
theorem header_omitted_counterexample :
    transcript [⟨"hello", none, none⟩] [] [] = ["[000.00] hello"] ∧
    (["[000.00] hello"] : List String) ≠ ["hello"] :=
  ⟨by decide, by decide⟩

theorem mergeStep_inv (vad : List VadSeg) (events : List Event) (st : MState)
    (iw : ℕ × AlignRow)
    (h1 : ∀ l ∈ st.lines, l.1.isSome = true)
    (_h2 : st.current ≠ [] → st.curStart.isSome = true) :
    (∀ l ∈ (mergeStep vad events st iw).lines, l.1.isSome = true) ∧
    ((mergeStep vad events st iw).current ≠ [] →
      (mergeStep vad events st iw).curStart.isSome = true) := by
  by_cases h : largePause vad st.prevEnd (iw.2.start.getD 0) = true
  · rw [mergeStep_of_largePause vad events st iw h]
    refine ⟨fun l hl => ?_, fun hc => absurd rfl hc⟩
    rcases List.mem_append.mp hl with hl' | hl'
    · exact h1 l hl'
    · rw [List.mem_singleton.mp hl']
      rfl
  · rw [mergeStep_not_largePause vad events st iw (by
      cases hv : largePause vad st.prevEnd (iw.2.start.getD 0)
      · rfl
      · exact absurd hv h)]
    exact ⟨h1, fun _ => rfl⟩

theorem foldl_mergeStep_inv (vad : List VadSeg) (events : List Event) :
    ∀ (l : List (ℕ × AlignRow)) (st : MState),
    (∀ x ∈ st.lines, x.1.isSome = true) → (st.current ≠ [] → st.curStart.isSome = true) →
    (∀ x ∈ (l.foldl (mergeStep vad events) st).lines, x.1.isSome = true) ∧
    ((l.foldl (mergeStep vad events) st).current ≠ [] →
      (l.foldl (mergeStep vad events) st).curStart.isSome = true) := by
  intro l
  induction l with
  | nil => exact fun st h1 h2 => ⟨h1, h2⟩
  | cons a as ih =>
    intro st h1 h2
    have h := mergeStep_inv vad events st a h1 h2
    exact ih _ h.1 h.2

/-- C4 (amended): the timestamp header is never omitted from a committed
line: every committed line carries a present start value (a missing
first-word start having been defaulted to `0.0`, which is also used for
header formatting, not only for adjacency comparisons). -/
theorem header_always_present (rows : List AlignRow) (vad : List VadSeg)
    (events : List Event) :
    ∀ l ∈ merge_lines rows vad events, l.1.isSome = true := by
  intro l hl
  have h := foldl_mergeStep_inv vad events rows.enum ⟨[], [], none, 0⟩
    (by intro x hx; exact absurd hx (List.not_mem_nil x)) (fun hc => absurd rfl hc)
  unfold merge_lines mergeFinish at hl
  by_cases hc : (rows.enum.foldl (mergeStep vad events) ⟨[], [], none, 0⟩).current.isEmpty = true
  · rw [if_pos hc] at hl
    exact h.1 l hl
  · rw [if_neg hc] at hl
    rcases List.mem_append.mp hl with hl' | hl'
    · exact h.1 l hl'
    · rw [List.mem_singleton.mp hl']
      exact h.2 fun hnil => hc (by rw [hnil]; rfl)

/-- Witness for `header_always_present` at a concrete input. -/
theorem header_always_present_witness :
    ((some (0:ℚ), [["hello"]]) : Option ℚ × List (List String)).1.isSome = true :=
  header_always_present [⟨"hello", none, none⟩] [] [] (some 0, [["hello"]]) (by decide)

theorem mergeStep_groups (vad : List VadSeg) (events : List Event) (st : MState)
    (iw : ℕ × AlignRow) :
    (((mergeStep vad events st iw).lines.map Prod.snd).flatten ++
        (mergeStep vad events st iw).current) =
      (((st.lines.map Prod.snd).flatten ++ st.current) ++
        [wordGroup events iw.1 iw.2]) := by
  by_cases h : largePause vad st.prevEnd (iw.2.start.getD 0) = true
  · rw [mergeStep_of_largePause vad events st iw h]
    simp [List.flatten_append]
  · rw [mergeStep_not_largePause vad events st iw (by
      cases hv : largePause vad st.prevEnd (iw.2.start.getD 0)
      · rfl
      · exact absurd hv h)]
    simp

theorem foldl_mergeStep_groups (vad : List VadSeg) (events : List Event) :
    ∀ (l : List (ℕ × AlignRow)) (st : MState),
    (((l.foldl (mergeStep vad events) st).lines.map Prod.snd).flatten ++
        (l.foldl (mergeStep vad events) st).current) =
      (((st.lines.map Prod.snd).flatten ++ st.current) ++
        l.map fun iw => wordGroup events iw.1 iw.2) := by
  intro l
  induction l with
  | nil => simp
  | cons a as ih =>
    intro st
    rw [List.foldl_cons, ih, mergeStep_groups, List.map_cons]
    simp

theorem mergeFinish_groups (st : MState) :
    ((mergeFinish st).map Prod.snd).flatten =
      (st.lines.map Prod.snd).flatten ++ st.current := by
  unfold mergeFinish
  by_cases hc : st.current.isEmpty = true
  · rw [if_pos hc, List.isEmpty_iff.mp hc]
    simp
  · rw [if_neg hc]
    simp [List.flatten_append]

/-- C6: the token groups committed across all transcript lines are exactly,
in original index order, one group per word, each group being the word's
before-markers, its text and its after-markers (empty strings dropped) —
so every nonempty word text appears in its own group, exactly once, in
order, aside from the inserted markers and the line headers. -/
theorem word_coverage (rows : List AlignRow) (vad : List VadSeg)
    (events : List Event) :
    ((merge_lines rows vad events).map Prod.snd).flatten =
      (rows.enum.map fun iw => wordGroup events iw.1 iw.2) ∧
    ∀ iw ∈ rows.enum, iw.2.word ≠ "" →
      iw.2.word ∈ wordGroup events iw.1 iw.2 := by
  constructor
  · unfold merge_lines
    rw [mergeFinish_groups, foldl_mergeStep_groups]
    simp
  · intro iw _ hne
    refine List.mem_filter.mpr ⟨by simp, by simp [hne]⟩

/-- Witness for `word_coverage` at a concrete input. -/
theorem word_coverage_witness :
    ((merge_lines [⟨"hi", some 1, some 2⟩] [] []).map Prod.snd).flatten = [["hi"]] ∧
    "hi" ∈ wordGroup [] 0 ⟨"hi", some 1, some 2⟩ := by
  have h := word_coverage [⟨"hi", some 1, some 2⟩] [] []
  exact ⟨by rw [h.1]; decide, h.2 (0, ⟨"hi", some 1, some 2⟩) (by decide) (by decide)⟩

end Merger

/-! ## Time-slice export -/

namespace MLPrep

theorem appendAt_length : ∀ (l : List (List String)) (i : ℕ) (t : String),
    (appendAt l i t).length = l.length
  | [], _, _ => rfl
  | _ :: rest, 0, _ => rfl
  | s :: rest, Nat.succ k, t => by
    simp only [appendAt, List.length_cons, appendAt_length rest k t]

theorem foldl_fill_length (boundaries : List (ℚ × ℚ)) :
    ∀ (a : List (String × ℚ)) (sl : List (List String)),
    (a.foldl
      (fun sl a =>
        match place boundaries a.2 with
        | some i => appendAt sl i a.1
        | none => appendAt sl (boundaries.length - 1) a.1) sl).length = sl.length := by
  intro a
  induction a with
  | nil => intro sl; rfl
  | cons x xs ih =>
    intro sl
    rw [List.foldl_cons, ih]
    cases place boundaries x.2 <;> simp [appendAt_length]

theorem fillSlices_length (boundaries : List (ℚ × ℚ)) (assignments : List (String × ℚ)) :
    (fillSlices boundaries assignments).length = boundaries.length := by
  unfold fillSlices
  rw [foldl_fill_length, List.length_map]

theorem split_by_time_length (total : ℚ) (n : ℕ) : (split_by_time total n).length = n := by
  unfold split_by_time
  rw [List.length_map, List.length_range]

/-- C5: the exporter always emits exactly `n` output lines (for any positive
slice count, in particular the default 5), and with zero words it emits
exactly `n` empty-string lines regardless of the annotated transcript's
content. -/
theorem export_line_count (annot : List String) (rows : List MLRow) (n : ℕ)
    (_hn : 0 < n) :
    (ml_main annot rows n).length = n ∧
    (rows = [] → ml_main annot rows n = List.replicate n "") := by
  constructor
  · unfold ml_main
    by_cases h : rows.length = 0
    · rw [if_pos h]
      exact List.length_replicate _ _
    · rw [if_neg h]
      unfold assign_tokens_to_slices
      rw [List.length_map, fillSlices_length, split_by_time_length]
  · intro h
    subst h
    simp [ml_main]

/-- Witness for `export_line_count` at a concrete input. -/
theorem export_line_count_witness :
    (ml_main ["x"] [] 5).length = 5 ∧ ml_main ["x"] [] 5 = ["", "", "", "", ""] := by
  have h := export_line_count ["x"] [] 5 (by decide)
  exact ⟨h.1, by rw [h.2 rfl]; rfl⟩

/-- C8 (counterexample): with a final word carrying neither a parseable
end nor a start, the scan falls back to an *earlier* word's end (5.0),
not to 1.0 as the claim states. -/
theorem total_duration_counterexample :
    estimate_total_duration [⟨"a", some 0, some (some 5)⟩, ⟨"b", none, none⟩] = 5 ∧
    (5 : ℚ) ≠ 1 :=
  ⟨by decide, by decide⟩

/-- Modelled from the spec, amended: the value contributed by the latest
word with usable timing — scanning words from the last backwards, a word
with a parseable end contributes its end, a word with an absent end and a
present start contributes its start, and a word with neither (or with an
end that is present but unparseable) is skipped; `0.0` when no word
contributes. -/
def specTotalDuration (rows : List MLRow) : ℚ :=
  max 1 ((rows.reverse.findSome? fun r =>
    match r.endRaw with
    | some (some e) => some e
    | some none => none
    | none => r.start).getD 0)

/-- C8 (amended): the total duration is `max(1.0, v)` where `v` comes from
the latest word with usable timing as described in `specTotalDuration`. -/
theorem total_duration_scan (rows : List MLRow) :
    estimate_total_duration rows = specTotalDuration rows := by
  unfold estimate_total_duration specTotalDuration
  congr 1
  generalize rows.reverse = l
  induction l with
  | nil => rfl
  | cons r rs ih =>
    rcases hr : r.endRaw with - | o
    · rcases hs : r.start with - | s
      · simp [durPick, List.findSome?_cons, hr, hs, ih]
      · simp [durPick, List.findSome?_cons, hr, hs]
    · rcases o with - | e
      · simp [durPick, List.findSome?_cons, hr, ih]
      · simp [durPick, List.findSome?_cons, hr]

/-- C10: once the word cursor reaches a word with an absent start, it never
advances again, and every remaining token is assigned the timestamp of the
most recently assigned token (or `0.0` when none has been assigned yet). -/
theorem stuck_cursor_assigns_last_time :
    ∀ (toks : List String) (wi : ℕ) (w : String)
      (wrest : List (ℕ × String × Option ℚ)) (acc : List (String × ℚ)),
    assignLoop toks ((wi, w, none) :: wrest) acc =
      acc ++ toks.map fun tok => (tok, fallbackTime acc none) := by
  intro toks
  induction toks with
  | nil => intro wi w wrest acc; simp [assignLoop]
  | cons tok toks ih =>
    intro wi w wrest acc
    have hf : fallbackTime (acc ++ [(tok, fallbackTime acc none)]) none =
        fallbackTime acc none := by
      simp [fallbackTime, List.getLast?_concat]
    simp only [assignLoop, ih, hf, List.map_cons, List.append_assoc,
      List.singleton_append]

end MLPrep

/-- C9: the engine is a deterministic function of its loaded inputs —
identical inputs yield identical merged events, identical transcript text
and identical export text. -/
theorem run_deterministic (rows : List AlignRow) (vad : Option (List VadSeg))
    (pros : Option (List (ℕ × ProsodyRow))) (mlrows : List MLPrep.MLRow) (n : ℕ)
    (rows' : List AlignRow) (vad' : Option (List VadSeg))
    (pros' : Option (List (ℕ × ProsodyRow))) (mlrows' : List MLPrep.MLRow) (n' : ℕ)
    (h1 : rows = rows') (h2 : vad = vad') (h3 : pros = pros')
    (h4 : mlrows = mlrows') (h5 : n = n') :
    run_all rows vad pros mlrows n = run_all rows' vad' pros' mlrows' n' := by
  subst h1 h2 h3 h4 h5
  rfl

/-- Witness for `run_deterministic` at a concrete input. -/
theorem run_deterministic_witness :
    run_all [] none none [] 5 = run_all [] none none [] 5 :=
  run_deterministic [] none none [] 5 [] none none [] 5 rfl rfl rfl rfl rfl

end SignalSense
